import Mathlib

/-!
Shallow embedding of `src/common/matrix.h` (class `Matrix`) from the
cuda_hgemm repository, and verification of the specification's claims
about it.

Modelling conventions:
* `half` values are modelled by the rational number they denote
  (`Half`, a wrapper around `ℚ`).  The widening conversion
  `__half2float` is exact on every representable half value, so it is
  modelled by the projection to `ℚ`.  The narrowing conversion
  `__float2half` is a rounding map whose numeric details none of the
  claims depend on; it is passed as an explicit parameter `f2h`.
* The random draws produced by `std::uniform_real_distribution` through
  `std::default_random_engine` are modelled as an explicit sequence
  `draws : Nat → ℚ` (the i-th value the loop obtains from
  `uniform(engine)`).
* `size_t` arithmetic is `Nat` arithmetic modulo `2^64` where overflow
  can occur (`m_elem_num = m_row * m_col`).
* Host and device buffers are `List Half`; `cudaMemcpy` of `n` elements
  into a buffer is modelled by `memcpyInto`, which replaces the first
  `n` elements and keeps the rest of the destination.
* A fatal check (`HGEMM_CHECK*`, which aborts the process) is modelled
  by returning `none`; accelerator allocation/copy/fill themselves are
  assumed to succeed (environment faults are out of scope).
* Methods that take a `Matrix *base` receive `Option Matrix`
  (`none` is the null pointer).  `tearUp` and `checkValue` return the
  pair (new `this`, new `base`): the source writes no field of `base`,
  so the second component is the unchanged argument.
-/

namespace CudaHgemm

/-- A half-precision value, identified with the rational it denotes. -/
structure Half where
  val : ℚ
deriving DecidableEq, Repr

/-- Widening conversion (source: __half2float); it is exact on every half value. -/
def half2float (h : Half) : ℚ := h.val

/-- The half value whose bit pattern is all zeros (`+0.0`), the result of
`cudaMemset(..., 0x00, ...)` on a half buffer. -/
def halfZero : Half := ⟨0⟩

/-- Modulus of size_t arithmetic. -/
def W64 : Nat := 2 ^ 64

/-- Model of cudaMemcpy(dst, src, n * sizeof(half), dir): the first `n` elements of
`dst` are replaced by the first `n` elements of `src`; the tail of `dst`
is untouched. -/
def memcpyInto (dst src : List Half) (n : Nat) : List Half :=
  src.take n ++ dst.drop n

/-- The loop `for i in [0, n): dst[i] = f2h (draws i)`:
the first `n` elements of `dst` are replaced by the converted draws. -/
def fillDraws (dst : List Half) (n : Nat) (f2h : ℚ → Half) (draws : Nat → ℚ) :
    List Half :=
  (List.range n).map (fun i => f2h (draws i)) ++ dst.drop n

/-- The state of one `Matrix` object (fields of the C++ class). -/
structure Matrix where
  m_row : Nat
  m_col : Nat
  m_name : String
  m_min : ℚ
  m_max : ℚ
  m_elem_num : Nat
  m_data : List Half
  m_gpu_data : List Half
  m_max_diff : ℚ
  m_avg_diff : ℚ
deriving DecidableEq, Repr

namespace Matrix

/-- Well-formedness established by the constructor: a positive element
count, the count derived from the shape by size_t multiplication, and
both buffers allocated with exactly that many elements. -/
def WF (m : Matrix) : Prop :=
  0 < m.m_elem_num ∧ m.m_elem_num = m.m_row * m.m_col % W64 ∧
    m.m_data.length = m.m_elem_num ∧ m.m_gpu_data.length = m.m_elem_num

instance (m : Matrix) : Decidable m.WF := by unfold WF; infer_instance

/-- Constructor Matrix::Matrix(row, col, name, min, max).
Checks `row > 0`, `col > 0`, computes `m_elem_num = row * col` in `size_t`
(modulo `2^64`), checks `m_elem_num > 0`, allocates both buffers
(the fresh allocations are modelled as zero-filled; every element is
overwritten before being read), fills the host buffer with converted
uniform draws, and copies the host buffer to the device buffer. -/
def create (row col : Nat) (name : String) (mn mx : ℚ)
    (f2h : ℚ → Half) (draws : Nat → ℚ) : Option Matrix :=
  if row = 0 then none
  else if col = 0 then none
  else
    let elemNum := row * col % W64
    if elemNum = 0 then none
    else
      let data := fillDraws (List.replicate elemNum halfZero) elemNum f2h draws
      let gpu := memcpyInto (List.replicate elemNum halfZero) data elemNum
      some { m_row := row, m_col := col, m_name := name, m_min := mn,
             m_max := mx, m_elem_num := elemNum, m_data := data,
             m_gpu_data := gpu, m_max_diff := 0, m_avg_diff := 0 }

/-- Method Matrix::moveToHost(): copy `m_elem_num` elements device → host. -/
def moveToHost (m : Matrix) : Matrix :=
  { m with m_data := memcpyInto m.m_data m.m_gpu_data m.m_elem_num }

/-- Method Matrix::zeros(): cudaMemset the device buffer to the all-zero bit
pattern over `m_elem_num` elements, then `moveToHost()`. -/
def zeros (m : Matrix) : Matrix :=
  moveToHost
    { m with
      m_gpu_data :=
        List.replicate m.m_elem_num halfZero ++ m.m_gpu_data.drop m.m_elem_num }

/-- Method Matrix::random(min, max): regenerate every host element from fresh
uniform draws, then call `moveToHost()` (a device → host pull; this is
what the source does, whatever the author intended). -/
def random (m : Matrix) (f2h : ℚ → Half) (draws : Nat → ℚ) : Matrix :=
  moveToHost { m with m_data := fillDraws m.m_data m.m_elem_num f2h draws }

/-- Method Matrix::tearUp(base): fatal checks `base != nullptr`,
`m_row == base->getRow()`, `m_col == base->getCol()`; then copy
`m_elem_num` elements from `base`'s host buffer into this object's
device buffer.  Returns (new `this`, new `base`). -/
def tearUp (m : Matrix) (base : Option Matrix) : Option (Matrix × Matrix) :=
  match base with
  | none => none
  | some b =>
    if m.m_row = b.m_row then
      if m.m_col = b.m_col then
        some ({ m with m_gpu_data := memcpyInto m.m_gpu_data b.m_data m.m_elem_num }, b)
      else none
    else none

/-- The per-index absolute differences the `checkValue` loop computes:
`|__half2float(m_data[i]) - __half2float(base->getData()[i])|`
for `i` in `[0, m_elem_num)`. -/
def absDiffs (m b : Matrix) : List ℚ :=
  (List.range m.m_elem_num).map (fun i =>
    |half2float (m.m_data.getD i halfZero) -
      half2float (b.m_data.getD i halfZero)|)

/-- Method Matrix::checkValue(base): fatal checks as in `tearUp`; then reset
`m_max_diff` and `m_avg_diff` to 0, loop over all indices accumulating
the running maximum and the running sum of the absolute differences,
and divide the sum by the element count.  The single source loop is
rendered as two folds over the same per-index difference list.
Returns (new `this`, new `base`). -/
def checkValue (m : Matrix) (base : Option Matrix) : Option (Matrix × Matrix) :=
  match base with
  | none => none
  | some b =>
    if m.m_row = b.m_row then
      if m.m_col = b.m_col then
        some ({ m with
                m_max_diff := (absDiffs m b).foldl max 0,
                m_avg_diff := (absDiffs m b).foldl (· + ·) 0 / (m.m_elem_num : ℚ) },
              b)
      else none
    else none

end Matrix

/-! ### Helper lemmas about folds and buffer copies -/

/-- The running maximum never drops below its starting value. -/
theorem le_foldl_max (l : List ℚ) (a : ℚ) : a ≤ l.foldl max a := by
  induction l generalizing a with
  | nil => exact le_refl a
  | cons x l ih => exact le_trans (le_max_left a x) (ih (max a x))

/-- Every list element is bounded by the running maximum. -/
theorem mem_le_foldl_max (l : List ℚ) (a x : ℚ) (hx : x ∈ l) :
    x ≤ l.foldl max a := by
  induction l generalizing a with
  | nil => cases hx
  | cons y l ih =>
    rw [List.foldl_cons]
    rcases List.mem_cons.mp hx with h | h
    · subst h
      exact le_trans (le_max_right a x) (le_foldl_max l (max a x))
    · exact ih (max a y) h

/-- The running maximum is the starting value or one of the elements. -/
theorem foldl_max_eq_or_mem (l : List ℚ) (a : ℚ) :
    l.foldl max a = a ∨ l.foldl max a ∈ l := by
  induction l generalizing a with
  | nil => exact Or.inl rfl
  | cons y l ih =>
    rcases ih (max a y) with h | h
    · rcases max_choice a y with hm | hm
      · exact Or.inl (by rw [List.foldl_cons, h, hm])
      · exact Or.inr (by rw [List.foldl_cons, h, hm]; exact List.mem_cons_self y l)
    · exact Or.inr (List.mem_cons_of_mem y h)

/-- A left fold of addition is the starting value plus the list sum. -/
theorem foldl_add_eq_sum (l : List ℚ) (a : ℚ) :
    l.foldl (· + ·) a = a + l.sum := by
  induction l generalizing a with
  | nil => simp
  | cons x l ih => rw [List.foldl_cons, ih, List.sum_cons, add_assoc]

/-- A list whose elements are all bounded by `M` has sum at most
`length * M`. -/
theorem sum_le_length_mul (l : List ℚ) (M : ℚ) (h : ∀ x ∈ l, x ≤ M) :
    l.sum ≤ (l.length : ℚ) * M := by
  induction l with
  | nil => simp
  | cons x l ih =>
    have hx := h x (List.mem_cons_self x l)
    have hl := ih (fun y hy => h y (List.mem_cons_of_mem x hy))
    calc (x :: l).sum = x + l.sum := List.sum_cons
    _ ≤ M + (l.length : ℚ) * M := add_le_add hx hl
    _ = (((x :: l).length : ℕ) : ℚ) * M := by push_cast [List.length_cons]; ring

/-- Copying `n` elements into a destination of at most `n` elements from a
source of exactly `n` elements replaces the destination entirely. -/
theorem memcpyInto_full (dst src : List Half) (n : Nat)
    (hs : src.length = n) (hd : dst.length ≤ n) :
    memcpyInto dst src n = src := by
  unfold memcpyInto
  rw [List.take_of_length_le (le_of_eq hs), List.drop_eq_nil_of_le hd,
    List.append_nil]

/-- Filling `n` draws into a destination of at most `n` elements replaces
the destination by the converted draw sequence. -/
theorem fillDraws_full (dst : List Half) (n : Nat) (f2h : ℚ → Half)
    (draws : Nat → ℚ) (hd : dst.length ≤ n) :
    fillDraws dst n f2h draws = (List.range n).map (fun i => f2h (draws i)) := by
  unfold fillDraws
  rw [List.drop_eq_nil_of_le hd, List.append_nil]

/-! ### Concrete matrices used to instantiate hypotheses -/

/-- A well-formed 1×2 matrix with host and device in sync. -/
def sampleA : Matrix :=
  { m_row := 1, m_col := 2, m_name := "A", m_min := -2, m_max := 2,
    m_elem_num := 2, m_data := [⟨1⟩, ⟨0⟩], m_gpu_data := [⟨1⟩, ⟨0⟩],
    m_max_diff := 0, m_avg_diff := 0 }

/-- A well-formed 1×2 matrix whose host and device content diverge. -/
def sampleB : Matrix :=
  { m_row := 1, m_col := 2, m_name := "B", m_min := -2, m_max := 2,
    m_elem_num := 2, m_data := [⟨1⟩, ⟨2⟩], m_gpu_data := [⟨0⟩, ⟨0⟩],
    m_max_diff := 0, m_avg_diff := 0 }

/-! ### Claims -/

/-- C1: the spec demands that after `random(min, max)` both buffers hold the
newly generated draw sequence.  The code instead ends `random` with
`moveToHost()`, a device → host copy that overwrites the freshly written
host buffer with the old device content, so the generated draws are
discarded: on a 1×2 matrix with device content `[0, 0]` and every draw
equal to `5`, the host buffer after `random` is `[0, 0]`, not the
converted draw sequence `[5, 5]`. -/
theorem random_discards_draws :
    (sampleB.random (fun x => Half.mk x) (fun _ => (5 : ℚ))).m_data
        = sampleB.m_gpu_data ∧
    (sampleB.random (fun x => Half.mk x) (fun _ => (5 : ℚ))).m_data
        ≠ (List.range sampleB.m_elem_num).map
            (fun i => Half.mk ((fun _ => (5 : ℚ)) i)) := by
  decide

/-- C9: `random(min, max)` never writes to the device buffer: its loop
writes the host buffer and its trailing `moveToHost()` reads the device
buffer, so the device content after the call is exactly the content
before the call. -/
theorem random_device_frame (m : Matrix) (f2h : ℚ → Half) (draws : Nat → ℚ) :
    (m.random f2h draws).m_gpu_data = m.m_gpu_data := rfl

/-- C4: after `zeros()` every element of the device buffer and every
element of the host buffer is half-precision `0.0`, and the two buffers
hold identical content. -/
theorem zeros_spec (m : Matrix) (h : m.WF) :
    (∀ x ∈ m.zeros.m_gpu_data, x = halfZero) ∧
    (∀ x ∈ m.zeros.m_data, x = halfZero) ∧
    m.zeros.m_data = m.zeros.m_gpu_data := by
  obtain ⟨hpos, hmod, hdata, hgpu⟩ := h
  have hg : m.zeros.m_gpu_data = List.replicate m.m_elem_num halfZero := by
    show List.replicate _ _ ++ m.m_gpu_data.drop _ = _
    rw [List.drop_eq_nil_of_le (le_of_eq hgpu), List.append_nil]
  have hh : m.zeros.m_data = List.replicate m.m_elem_num halfZero := by
    show memcpyInto m.m_data
      (List.replicate m.m_elem_num halfZero ++ m.m_gpu_data.drop m.m_elem_num)
      m.m_elem_num = _
    rw [List.drop_eq_nil_of_le (le_of_eq hgpu), List.append_nil]
    exact memcpyInto_full _ _ _ (List.length_replicate _ _) (le_of_eq hdata)
  refine ⟨?_, ?_, ?_⟩
  · intro x hx
    rw [hg] at hx
    exact List.eq_of_mem_replicate hx
  · intro x hx
    rw [hh] at hx
    exact List.eq_of_mem_replicate hx
  · rw [hg, hh]

/-- C4 witness: `zeros_spec` instantiated on a concrete 1×2 matrix. -/
theorem zeros_spec_witness :
    (∀ x ∈ sampleA.zeros.m_gpu_data, x = halfZero) ∧
    (∀ x ∈ sampleA.zeros.m_data, x = halfZero) ∧
    sampleA.zeros.m_data = sampleA.zeros.m_gpu_data :=
  zeros_spec sampleA (by decide)

/-- C7: when host and device content are in sync (no device mutation since
the last synchronisation), `moveToHost()` leaves the host content
unchanged; moreover a second `moveToHost()` never changes the host
content produced by a first one. -/
theorem moveToHost_noop (m : Matrix) (h : m.WF) :
    (m.m_data = m.m_gpu_data → m.moveToHost.m_data = m.m_data) ∧
    m.moveToHost.moveToHost.m_data = m.moveToHost.m_data := by
  obtain ⟨hpos, hmod, hdata, hgpu⟩ := h
  have key : m.moveToHost.m_data = m.m_gpu_data :=
    memcpyInto_full _ _ _ hgpu (le_of_eq hdata)
  have key2 : m.moveToHost.moveToHost.m_data = m.m_gpu_data := by
    show memcpyInto m.moveToHost.m_data m.m_gpu_data m.m_elem_num = _
    rw [key]
    exact memcpyInto_full _ _ _ hgpu (le_of_eq hgpu)
  refine ⟨?_, ?_⟩
  · intro hsync
    rw [key, ← hsync]
  · rw [key, key2]

/-- C7 witness: `moveToHost_noop` instantiated on a concrete in-sync
matrix. -/
theorem moveToHost_noop_witness :
    (sampleA.m_data = sampleA.m_gpu_data →
      sampleA.moveToHost.m_data = sampleA.m_data) ∧
    sampleA.moveToHost.moveToHost.m_data = sampleA.moveToHost.m_data :=
  moveToHost_noop sampleA (by decide)

/-- C2 counterexample: rows and cols both `2^32` are positive, yet the
constructor aborts, because `m_elem_num = m_row * m_col` is computed in
size_t arithmetic, `2^32 * 2^32` wraps to `0`, and the fatal check
`m_elem_num > 0` then fires.  The claim asserts construction succeeds
for all positive rows and cols with `elem_count` the mathematical
product. -/
theorem create_overflow_aborts :
    0 < 2 ^ 32 ∧
    Matrix.create (2 ^ 32) (2 ^ 32) "M" (-2) 2 (fun x => Half.mk x)
      (fun _ => 0) = none := by
  constructor
  · norm_num
  · norm_num [Matrix.create, W64]

/-- C2 (amended): for rows, cols > 0 whose mathematical product is below
`2^64`, construction succeeds, `m_elem_num` equals the product, both
buffers are allocated with exactly that many elements, and host and
device content coincide; for rows = 0 or cols = 0 construction aborts
with a fatal precondition violation.  (When the product overflows
size_t, construction either aborts or records a wrapped element count;
see the counterexample.) -/
theorem create_spec (row col : Nat) (name : String) (mn mx : ℚ)
    (f2h : ℚ → Half) (draws : Nat → ℚ) :
    (0 < row → 0 < col → row * col < W64 →
      ∃ m, Matrix.create row col name mn mx f2h draws = some m ∧
        m.m_elem_num = row * col ∧
        m.m_data.length = row * col ∧ m.m_gpu_data.length = row * col ∧
        m.m_gpu_data = m.m_data ∧ m.WF) ∧
    (row = 0 ∨ col = 0 →
      Matrix.create row col name mn mx f2h draws = none) := by
  constructor
  · intro hr hc hsz
    have hr0 : ¬row = 0 := Nat.pos_iff_ne_zero.mp hr
    have hc0 : ¬col = 0 := Nat.pos_iff_ne_zero.mp hc
    have hmod : row * col % W64 = row * col := Nat.mod_eq_of_lt hsz
    have hpos : 0 < row * col := Nat.mul_pos hr hc
    have hne : ¬row * col % W64 = 0 := by
      rw [hmod]; exact Nat.pos_iff_ne_zero.mp hpos
    have hdlen : (fillDraws (List.replicate (row * col % W64) halfZero)
        (row * col % W64) f2h draws).length = row * col % W64 := by
      rw [fillDraws_full _ _ _ _ (le_of_eq (List.length_replicate _ _)),
        List.length_map, List.length_range]
    have hgpu : memcpyInto (List.replicate (row * col % W64) halfZero)
        (fillDraws (List.replicate (row * col % W64) halfZero)
          (row * col % W64) f2h draws) (row * col % W64)
        = fillDraws (List.replicate (row * col % W64) halfZero)
            (row * col % W64) f2h draws :=
      memcpyInto_full _ _ _ hdlen (le_of_eq (List.length_replicate _ _))
    refine ⟨{ m_row := row, m_col := col, m_name := name, m_min := mn,
              m_max := mx, m_elem_num := row * col % W64,
              m_data := fillDraws (List.replicate (row * col % W64) halfZero)
                (row * col % W64) f2h draws,
              m_gpu_data := memcpyInto (List.replicate (row * col % W64) halfZero)
                (fillDraws (List.replicate (row * col % W64) halfZero)
                  (row * col % W64) f2h draws) (row * col % W64),
              m_max_diff := 0, m_avg_diff := 0 }, ?_, ?_, ?_, ?_, ?_, ?_⟩
    · simp only [Matrix.create]
      rw [if_neg hr0, if_neg hc0, if_neg hne]
    · dsimp only
      exact hmod
    · dsimp only
      rw [hdlen]; exact hmod
    · dsimp only
      rw [hgpu, hdlen]; exact hmod
    · dsimp only
      exact hgpu
    · refine ⟨?_, rfl, ?_, ?_⟩
      · dsimp only
        rw [hmod]; exact hpos
      · dsimp only
        exact hdlen
      · dsimp only
        rw [hgpu]; exact hdlen
  · intro h
    rcases h with h | h <;> simp [Matrix.create, h]

/-- C2 witness: `create_spec` instantiated at the successful shape 1×2 and
at the aborting shape 0×2. -/
theorem create_spec_witness :
    (∃ m, Matrix.create 1 2 "M" (-2) 2 (fun x => Half.mk x) (fun _ => 0)
        = some m ∧
      m.m_elem_num = 1 * 2 ∧
      m.m_data.length = 1 * 2 ∧ m.m_gpu_data.length = 1 * 2 ∧
      m.m_gpu_data = m.m_data ∧ m.WF) ∧
    Matrix.create 0 2 "M" (-2) 2 (fun x => Half.mk x) (fun _ => 0) = none :=
  ⟨(create_spec 1 2 "M" (-2) 2 (fun x => Half.mk x) (fun _ => 0)).1
      (by decide) (by decide) (by norm_num [W64]),
   (create_spec 0 2 "M" (-2) 2 (fun x => Half.mk x) (fun _ => 0)).2
      (Or.inl rfl)⟩

/-- C5: for equal-shape well-formed matrices, `tearUp(base)` sets this
object's device buffer to `base`'s host content, leaves this object's
host buffer (and shape) unchanged, and returns `base` itself untouched
(the source writes no field of `base`). -/
theorem tearUp_spec (m b : Matrix) (hm : m.WF) (hb : b.WF)
    (hrow : m.m_row = b.m_row) (hcol : m.m_col = b.m_col) :
    ∃ m', m.tearUp (some b) = some (m', b) ∧
      m'.m_gpu_data = b.m_data ∧
      m'.m_data = m.m_data ∧ m'.m_row = m.m_row ∧ m'.m_col = m.m_col ∧
      m'.m_elem_num = m.m_elem_num := by
  obtain ⟨hmpos, hmmod, hmdata, hmgpu⟩ := hm
  obtain ⟨hbpos, hbmod, hbdata, hbgpu⟩ := hb
  have helem : m.m_elem_num = b.m_elem_num := by
    rw [hmmod, hbmod, hrow, hcol]
  refine ⟨{ m with m_gpu_data := memcpyInto m.m_gpu_data b.m_data m.m_elem_num },
    ?_, ?_, rfl, rfl, rfl, rfl⟩
  · simp only [Matrix.tearUp]
    rw [if_pos hrow, if_pos hcol]
  · show memcpyInto m.m_gpu_data b.m_data m.m_elem_num = b.m_data
    exact memcpyInto_full _ _ _ (by rw [hbdata, ← helem]) (le_of_eq hmgpu)

/-- C5 witness: `tearUp_spec` instantiated on two concrete equal-shape
matrices. -/
theorem tearUp_spec_witness :
    ∃ m', sampleA.tearUp (some sampleB) = some (m', sampleB) ∧
      m'.m_gpu_data = sampleB.m_data ∧
      m'.m_data = sampleA.m_data ∧ m'.m_row = sampleA.m_row ∧
      m'.m_col = sampleA.m_col ∧ m'.m_elem_num = sampleA.m_elem_num :=
  tearUp_spec sampleA sampleB (by decide) (by decide) rfl rfl

/-- C6: `tearUp(base)` and `checkValue(base)` abort with a fatal
precondition violation exactly when `base` is null or a row or column
count differs; the checks run before any state is modified, so an
aborting call produces no new state at all (`none`). -/
theorem tearUp_checkValue_abort_iff (m : Matrix) (base : Option Matrix) :
    (m.tearUp base = none ↔
      base = none ∨ ∃ b, base = some b ∧
        (m.m_row ≠ b.m_row ∨ m.m_col ≠ b.m_col)) ∧
    (m.checkValue base = none ↔
      base = none ∨ ∃ b, base = some b ∧
        (m.m_row ≠ b.m_row ∨ m.m_col ≠ b.m_col)) := by
  cases base with
  | none => simp [Matrix.tearUp, Matrix.checkValue]
  | some b =>
    constructor
    · rw [Matrix.tearUp]
      by_cases h1 : m.m_row = b.m_row <;> by_cases h2 : m.m_col = b.m_col <;>
        simp [h1, h2]
    · rw [Matrix.checkValue]
      by_cases h1 : m.m_row = b.m_row <;> by_cases h2 : m.m_col = b.m_col <;>
        simp [h1, h2]

/-- C3: for equal-shape matrices, `checkValue(base)` stores as max-diff a
bound that dominates every per-index absolute difference of the widened
host values and is either one of those differences or 0, and stores as
avg-diff the sum of those differences divided by the element count; for
identical host content both statistics are exactly 0.  (Arithmetic on
the accumulators is modelled exactly, abstracting float rounding.) -/
theorem checkValue_computes (m b : Matrix)
    (hrow : m.m_row = b.m_row) (hcol : m.m_col = b.m_col) :
    ∃ m', m.checkValue (some b) = some (m', b) ∧
      (∀ i < m.m_elem_num,
        |half2float (m.m_data.getD i halfZero) -
          half2float (b.m_data.getD i halfZero)| ≤ m'.m_max_diff) ∧
      (m'.m_max_diff = 0 ∨ ∃ i < m.m_elem_num,
        m'.m_max_diff =
          |half2float (m.m_data.getD i halfZero) -
            half2float (b.m_data.getD i halfZero)|) ∧
      m'.m_avg_diff = (Matrix.absDiffs m b).sum / (m.m_elem_num : ℚ) ∧
      (m.m_data = b.m_data → m'.m_max_diff = 0 ∧ m'.m_avg_diff = 0) := by
  refine ⟨{ m with
            m_max_diff := (Matrix.absDiffs m b).foldl max 0,
            m_avg_diff := (Matrix.absDiffs m b).foldl (· + ·) 0 / (m.m_elem_num : ℚ) },
    ?_, ?_, ?_, ?_, ?_⟩
  · simp only [Matrix.checkValue]
    rw [if_pos hrow, if_pos hcol]
  · intro i hi
    dsimp only
    exact mem_le_foldl_max _ _ _
      (List.mem_map_of_mem _ (List.mem_range.mpr hi))
  · dsimp only
    rcases foldl_max_eq_or_mem (Matrix.absDiffs m b) 0 with h | h
    · exact Or.inl h
    · simp only [Matrix.absDiffs] at h
      rcases List.mem_map.mp h with ⟨i, hi, hval⟩
      exact Or.inr ⟨i, List.mem_range.mp hi, hval.symm⟩
  · dsimp only
    rw [foldl_add_eq_sum, zero_add]
  · intro hdata
    have hzero : ∀ x ∈ Matrix.absDiffs m b, x = 0 := by
      intro x hx
      simp only [Matrix.absDiffs] at hx
      rcases List.mem_map.mp hx with ⟨i, _, hval⟩
      rw [← hval, hdata, sub_self, abs_zero]
    constructor
    · dsimp only
      rcases foldl_max_eq_or_mem (Matrix.absDiffs m b) 0 with h | h
      · exact h
      · exact hzero _ h
    · dsimp only
      rw [foldl_add_eq_sum, zero_add, List.sum_eq_zero hzero, zero_div]

/-- C3 witness: `checkValue_computes` instantiated on two concrete
equal-shape matrices. -/
theorem checkValue_computes_witness :
    ∃ m', sampleA.checkValue (some sampleB) = some (m', sampleB) ∧
      (∀ i < sampleA.m_elem_num,
        |half2float (sampleA.m_data.getD i halfZero) -
          half2float (sampleB.m_data.getD i halfZero)| ≤ m'.m_max_diff) ∧
      (m'.m_max_diff = 0 ∨ ∃ i < sampleA.m_elem_num,
        m'.m_max_diff =
          |half2float (sampleA.m_data.getD i halfZero) -
            half2float (sampleB.m_data.getD i halfZero)|) ∧
      m'.m_avg_diff = (Matrix.absDiffs sampleA sampleB).sum / (sampleA.m_elem_num : ℚ) ∧
      (sampleA.m_data = sampleB.m_data → m'.m_max_diff = 0 ∧ m'.m_avg_diff = 0) :=
  checkValue_computes sampleA sampleB rfl rfl

/-- C8: `checkValue(base)` changes only the two statistic fields of this
object: host and device buffers and the shape are untouched, `base` is
returned unmodified, and the statistics produced do not depend on the
statistic values held before the call (both are reset before the
accumulation). -/
theorem checkValue_frame (m b : Matrix)
    (hrow : m.m_row = b.m_row) (hcol : m.m_col = b.m_col) :
    ∃ m', m.checkValue (some b) = some (m', b) ∧
      m'.m_data = m.m_data ∧ m'.m_gpu_data = m.m_gpu_data ∧
      m'.m_row = m.m_row ∧ m'.m_col = m.m_col ∧ m'.m_elem_num = m.m_elem_num ∧
      (∀ x y : ℚ, ∃ m'',
        Matrix.checkValue { m with m_max_diff := x, m_avg_diff := y } (some b)
          = some (m'', b) ∧
        m''.m_max_diff = m'.m_max_diff ∧ m''.m_avg_diff = m'.m_avg_diff) := by
  refine ⟨{ m with
            m_max_diff := (Matrix.absDiffs m b).foldl max 0,
            m_avg_diff := (Matrix.absDiffs m b).foldl (· + ·) 0 / (m.m_elem_num : ℚ) },
    ?_, rfl, rfl, rfl, rfl, rfl, ?_⟩
  · simp only [Matrix.checkValue]
    rw [if_pos hrow, if_pos hcol]
  · intro x y
    refine ⟨{ m with
              m_max_diff := (Matrix.absDiffs m b).foldl max 0,
              m_avg_diff := (Matrix.absDiffs m b).foldl (· + ·) 0 / (m.m_elem_num : ℚ) },
      ?_, rfl, rfl⟩
    simp only [Matrix.checkValue]
    rw [if_pos hrow, if_pos hcol]
    rfl

/-- C8 witness: `checkValue_frame` instantiated on two concrete
equal-shape matrices. -/
theorem checkValue_frame_witness :
    ∃ m', sampleA.checkValue (some sampleB) = some (m', sampleB) ∧
      m'.m_data = sampleA.m_data ∧ m'.m_gpu_data = sampleA.m_gpu_data ∧
      m'.m_row = sampleA.m_row ∧ m'.m_col = sampleA.m_col ∧
      m'.m_elem_num = sampleA.m_elem_num ∧
      (∀ x y : ℚ, ∃ m'',
        Matrix.checkValue
            { sampleA with m_max_diff := x, m_avg_diff := y } (some sampleB)
          = some (m'', sampleB) ∧
        m''.m_max_diff = m'.m_max_diff ∧ m''.m_avg_diff = m'.m_avg_diff) :=
  checkValue_frame sampleA sampleB rfl rfl

/-- C10: after a successful `checkValue(base)` on a matrix with a positive
element count, the stored statistics satisfy
`0 ≤ avg-diff ≤ max-diff`: every per-element absolute difference is
non-negative and bounded by the running maximum, so their mean is too. -/
theorem checkValue_stats_order (m b : Matrix)
    (hrow : m.m_row = b.m_row) (hcol : m.m_col = b.m_col)
    (hpos : 0 < m.m_elem_num) :
    ∃ m', m.checkValue (some b) = some (m', b) ∧
      0 ≤ m'.m_avg_diff ∧ m'.m_avg_diff ≤ m'.m_max_diff := by
  have hnonneg : ∀ x ∈ Matrix.absDiffs m b, 0 ≤ x := by
    intro x hx
    simp only [Matrix.absDiffs] at hx
    rcases List.mem_map.mp hx with ⟨i, _, hval⟩
    rw [← hval]
    exact abs_nonneg _
  have hlen : (Matrix.absDiffs m b).length = m.m_elem_num := by
    simp [Matrix.absDiffs]
  have hsum0 : 0 ≤ (Matrix.absDiffs m b).sum := List.sum_nonneg hnonneg
  have hsumle : (Matrix.absDiffs m b).sum
      ≤ (m.m_elem_num : ℚ) * ((Matrix.absDiffs m b).foldl max 0) := by
    have h := sum_le_length_mul (Matrix.absDiffs m b) ((Matrix.absDiffs m b).foldl max 0)
      (fun x hx => mem_le_foldl_max _ _ _ hx)
    rwa [hlen] at h
  have hn : (0 : ℚ) < (m.m_elem_num : ℚ) := by exact_mod_cast hpos
  refine ⟨{ m with
            m_max_diff := (Matrix.absDiffs m b).foldl max 0,
            m_avg_diff := (Matrix.absDiffs m b).foldl (· + ·) 0 / (m.m_elem_num : ℚ) },
    ?_, ?_, ?_⟩
  · simp only [Matrix.checkValue]
    rw [if_pos hrow, if_pos hcol]
  · dsimp only
    rw [foldl_add_eq_sum, zero_add]
    exact div_nonneg hsum0 (le_of_lt hn)
  · dsimp only
    rw [foldl_add_eq_sum, zero_add, div_le_iff₀ hn]
    calc (Matrix.absDiffs m b).sum
        ≤ (m.m_elem_num : ℚ) * ((Matrix.absDiffs m b).foldl max 0) := hsumle
    _ = (Matrix.absDiffs m b).foldl max 0 * (m.m_elem_num : ℚ) := mul_comm _ _

/-- C10 witness: `checkValue_stats_order` instantiated on two concrete
equal-shape matrices. -/
theorem checkValue_stats_order_witness :
    ∃ m', sampleA.checkValue (some sampleB) = some (m', sampleB) ∧
      0 ≤ m'.m_avg_diff ∧ m'.m_avg_diff ≤ m'.m_max_diff :=
  checkValue_stats_order sampleA sampleB rfl rfl (by decide)

end CudaHgemm
